import Mathlib

/-!
# Verification of `linked-list-insertion-sort-cpp`

Shallow embedding of the linked-list insertion sort from `src/main.cpp`
(the file appearing as `src/unnamed/part_001`, lines 306-673 of the bundle).

## Modelling choices

The C++ program manipulates a singly linked list of heap nodes

    struct Node { int data; Node* next; };
    struct List { Node* head; };

The spec's data model (§3) requires that at all times the nodes reachable
from `head` form a finite acyclic chain, each node owned exactly once.
Under that invariant the mutable heap fragment owned by the list is
isomorphic to the finite *sequence* of its nodes, read from `head`.  We
embed a node as a pair of its identity (`id : Nat`, standing for the node's
address — pointer comparison in the C++ source is comparison of these ids)
and its payload (`data : Int`).  The list state is the sequence
`List Node` of reachable nodes in chain order; a `Node*` value is an
`Option Nat` (`none` = `nullptr`, `some i` = the node with identity `i`).
A node's `next` field is implicit: it is the node that follows it in the
sequence (or `nullptr` for the last node); reading `curr->next` is embedded
as looking up the successor of the node with id `curr` in the sequence.

Undefined behaviour and assertion failure are made explicit: functions
that can dereference a null pointer or trip an `assert` return an
`Option`, with `none` marking the fault.  The driver loop (a C++ `while`)
is embedded with explicit fuel; running out of fuel also yields `none`,
and the fuel actually supplied (`l.length`) is proved sufficient.

Well-formedness `WF l` states that all node identities are distinct —
automatically true of any real heap (distinct live nodes have distinct
addresses).
-/

set_option maxHeartbeats 1000000

namespace LLIsort

/-- A heap node: `id` is its address (pointer identity), `data` its payload
(`int data` in the source). -/
structure Node where
  id : Nat
  data : Int
deriving DecidableEq

/-- Well-formed list state: all node identities (addresses) are distinct,
as is automatic for distinct live heap nodes. -/
def WF (l : List Node) : Prop := (l.map Node.id).Nodup

instance (l : List Node) : Decidable (WF l) :=
  inferInstanceAs (Decidable ((l.map Node.id).Nodup))

/-! ## List primitives (source lines 368-476) -/

/-- `ListPrepend` (source lines 368-392): `newNode->next = list->head;
list->head = newNode` — in sequence form, cons the node at the front. -/
def ListPrepend (l : List Node) (newNode : Node) : List Node :=
  newNode :: l

/-- Helper for `ListInsertAfter`: splice `newNode` immediately after the
(first) node whose id is `p`; this embeds `newNode->next = prev->next;
prev->next = newNode` when `prev` is the reachable node with id `p`.
If no reachable node has id `p`, the reachable sequence is unchanged
(the C++ would have written through a pointer outside the list). -/
def insertAfterId (p : Nat) (newNode : Node) : List Node → List Node
  | [] => []
  | m :: rest =>
      if m.id = p then m :: newNode :: rest
      else m :: insertAfterId p newNode rest

/-- `ListInsertAfter` (source lines 397-423).  The source begins with
`assert(prev != nullptr && "Cannot insert after a null node")`; a `none`
anchor therefore aborts, embedded as the `none` result. -/
def ListInsertAfter (l : List Node) (prev : Option Nat) (newNode : Node) :
    Option (List Node) :=
  match prev with
  | none => none
  | some p => some (insertAfterId p newNode l)

/-- Helper for `ListRemoveAfter`, normal case (source lines 457-475):
walk to the (first) node whose id is `p`; if it has a successor
(`nodeToRemove = prev->next` non-null), unlink and return that successor
(`prev->next = nodeToRemove->next; nodeToRemove->next = nullptr`),
otherwise return no node and leave the list unchanged. -/
def removeAfterId (p : Nat) : List Node → Option Node × List Node
  | [] => (none, [])
  | m :: rest =>
      if m.id = p then
        match rest with
        | [] => (none, [m])
        | r :: rest₂ => (some r, m :: rest₂)
      else
        let q := removeAfterId p rest
        (q.1, m :: q.2)

/-- `ListRemoveAfter` (source lines 428-476): with a `none` anchor it
removes and returns the head (`list->head = nodeToRemove->next;
nodeToRemove->next = nullptr`), guarded by `if (nodeToRemove)` so an empty
list returns no node; otherwise it removes the node after the anchor. -/
def ListRemoveAfter (l : List Node) (prev : Option Nat) :
    Option Node × List Node :=
  match prev with
  | none =>
      match l with
      | [] => (none, [])
      | h :: t => (some h, t)
  | some p => removeAfterId p l

/-! ## Insertion-point scan (source lines 482-503) -/

/-- Loop of `FindInsertionSpot`: `while (curr != boundary && curr->data <
value) { prev = curr; curr = curr->next; }` then `return prev`.  The first
argument of the recursion is the running `prev`, the list argument is the
chain hanging off `curr`.  When `curr` is null (`[]`) and `boundary` is a
non-null pointer, the test `curr != boundary` succeeds and `curr->data`
dereferences null: embedded as the `none` result. -/
def findSpotGo (value : Int) (boundary : Option Nat) :
    Option Nat → List Node → Option (Option Nat)
  | prev, [] =>
      match boundary with
      | none => some prev
      | some _ => none
  | prev, m :: rest =>
      if some m.id = boundary then some prev
      else if m.data < value then findSpotGo value boundary (some m.id) rest
      else some prev

/-- `FindInsertionSpot` (source lines 482-503): scan from the head with
`prev` starting at null.  Result `some spot` is the returned `prev`
pointer; result `none` is the null dereference described at
`findSpotGo`. -/
def FindInsertionSpot (l : List Node) (value : Int) (boundary : Option Nat) :
    Option (Option Nat) :=
  findSpotGo value boundary none l

/-- Spec-side counterpart of `FindInsertionSpot`, written from the spec's
words (§4.2, quoted by claim C4) for comparison with the translated
function: the scan advances "while the current node is not equal to
`boundary` (by reference, not value) and the current node's value is
strictly less than `value`", and returns "the last node visited that
satisfied the strict-less condition ..., or none if the scan stopped at
the head". -/
def findInsertionSpotSpec (l : List Node) (value : Int)
    (boundary : Option Nat) : Option Nat :=
  ((l.takeWhile fun m =>
      decide (some m.id ≠ boundary) && decide (m.data < value)).getLast?).map
    Node.id

/-! ## Sort driver (source lines 510-608) -/

/-- Reading the fields of the node whose address is `p`: locate it in the
reachable sequence (`List.find?`).  The driver only ever reads `curr`
while `curr` is reachable, which the proofs below establish. -/
def getNode (l : List Node) (p : Nat) : Option Node :=
  l.find? (fun n => n.id == p)

/-- Reading `p->next` for a reachable node: the id of its successor in
the sequence, or `none` when it is the last node. -/
def succId (p : Nat) : List Node → Option Nat
  | [] => none
  | m :: rest => if m.id = p then rest.head?.map Node.id else succId p rest

/-- One iteration of the `while (curr != nullptr)` body of
`ListInsertionSort` (source lines 526-607), for `prev` and `curr` the two
cursor pointers.  In order, as in the source:
`Node* next = curr->next;`
`Node* spot = FindInsertionSpot(list, curr->data, curr);`
then either `spot == prev` (advance `prev` to `curr`, no relinking), or
unlink (`ListRemoveAfter(list, prev)`, its return value unused) and
reinsert `curr` (`ListPrepend` if `spot` is null, else
`ListInsertAfter(list, spot, curr)`); finally `curr = next`.
Result: `some (new list state, new prev, new curr)`, or `none` if a fault
occurred (`curr` unreachable, null dereference in the scan, or the
`ListInsertAfter` assertion). -/
def sortStep (l : List Node) (prevId currId : Nat) :
    Option (List Node × Nat × Option Nat) :=
  match getNode l currId with
  | none => none
  | some curr =>
      let next := succId currId l
      match FindInsertionSpot l curr.data (some currId) with
      | none => none
      | some spot =>
          if spot = some prevId then
            some (l, currId, next)
          else
            let l₁ := (ListRemoveAfter l (some prevId)).2
            match spot with
            | none => some (ListPrepend l₁ curr, prevId, next)
            | some s =>
                match ListInsertAfter l₁ (some s) curr with
                | none => none
                | some l₂ => some (l₂, prevId, next)

/-- The `while (curr != nullptr)` loop of `ListInsertionSort` with
explicit fuel; `none` on a fault in the body or on fuel exhaustion
(the supplied fuel is proved sufficient below). -/
def sortLoop : Nat → List Node → Nat → Option Nat → Option (List Node)
  | _, l, _, none => some l
  | 0, _, _, some _ => none
  | fuel + 1, l, prevId, some currId =>
      match sortStep l prevId currId with
      | none => none
      | some (l₂, p₂, c₂) => sortLoop fuel l₂ p₂ c₂

/-- `ListInsertionSort` body with a given fuel for the loop: lists of
fewer than two nodes return immediately (`!list->head ||
!list->head->next`); otherwise `prev` starts at the head and `curr` at
its successor (source lines 510-525). -/
def sortWithFuel (fuel : Nat) (l : List Node) : Option (List Node) :=
  match l with
  | [] => some []
  | [n] => some [n]
  | n₀ :: n₁ :: _ => sortLoop fuel l n₀.id (some n₁.id)

/-- `ListInsertionSort` (source lines 510-608).  The loop needs one
iteration per node after the head; `l.length` fuel more than suffices. -/
def ListInsertionSort (l : List Node) : Option (List Node) :=
  sortWithFuel l.length l

/-- State of the driver after exactly `k` iterations of the loop
(observer for the loop invariant): iterating `sortStep` from the initial
cursors, holding the state once `curr` is null. -/
def loopIter : Nat → List Node → Nat → Option Nat → Option (List Node × Nat × Option Nat)
  | 0, l, p, c => some (l, p, c)
  | _ + 1, l, p, none => some (l, p, none)
  | k + 1, l, p, some c =>
      match sortStep l p c with
      | none => none
      | some (l₂, p₂, c₂) => loopIter k l₂ p₂ c₂

/-- The pointer value the scan returns: the identity of the last node of
the advanced-past segment, or the incoming `prev` when that segment is
empty. -/
def lastIdOr (prev : Option Nat) : List Node → Option Nat
  | [] => prev
  | m :: Q => lastIdOr (some m.id) Q

/-- Abstract effect of one relocation (used by the proofs, not part of
the translation): place `c` after the nodes whose value is strictly less
than `c.data`, i.e. before the first node whose value is not. -/
def insertSorted (c : Node) : List Node → List Node
  | [] => [c]
  | m :: rest =>
      if m.data < c.data then m :: insertSorted c rest else c :: m :: rest

/-- Abstract state of the processed segment after the driver has consumed
the nodes of `S`, starting from segment `P`. -/
def buildSorted (P S : List Node) : List Node :=
  S.foldl (fun acc c => insertSorted c acc) P

/-- The value `ListInsertionSort` computes on a well-formed list: fold the
abstract relocation over the nodes after the head. -/
def sortModel : List Node → List Node
  | [] => []
  | n₀ :: rest => buildSorted [n₀] rest

instance : IsTrans Node (fun a b => a.data ≤ b.data) :=
  ⟨fun _ _ _ => le_trans⟩

instance : IsTrans Node (fun a b => a.data < b.data) :=
  ⟨fun _ _ _ => lt_trans⟩

/-! ## Helper lemmas: locating a node by its identity -/

theorem getNode_cons_self (c : Node) (t : List Node) :
    getNode (c :: t) c.id = some c := by
  simp [getNode, List.find?]

theorem getNode_append_right (A B : List Node) (x : Nat)
    (hA : ∀ m ∈ A, m.id ≠ x) : getNode (A ++ B) x = getNode B x := by
  induction A with
  | nil => rfl
  | cons m A ih =>
      have hm : (m.id == x) = false := by
        simpa using hA m (by simp)
      simp only [List.cons_append, getNode, List.find?, hm]
      exact ih fun n hn => hA n (by simp [hn])

theorem succId_cons_self (c : Node) (t : List Node) :
    succId c.id (c :: t) = t.head?.map Node.id := by
  simp [succId]

theorem succId_append_right (A B : List Node) (x : Nat)
    (hA : ∀ m ∈ A, m.id ≠ x) : succId x (A ++ B) = succId x B := by
  induction A with
  | nil => rfl
  | cons m A ih =>
      have hm : ¬ m.id = x := hA m (by simp)
      simp only [List.cons_append, succId, hm, if_false]
      exact ih fun n hn => hA n (by simp [hn])

theorem removeAfterId_append_right (A B : List Node) (x : Nat)
    (hA : ∀ m ∈ A, m.id ≠ x) :
    removeAfterId x (A ++ B) =
      ((removeAfterId x B).1, A ++ (removeAfterId x B).2) := by
  induction A with
  | nil => rfl
  | cons m A ih =>
      have hm : ¬ m.id = x := hA m (by simp)
      simp [removeAfterId, hm, ih fun n hn => hA n (by simp [hn])]

theorem insertAfterId_append_right (A B : List Node) (x : Nat) (n : Node)
    (hA : ∀ m ∈ A, m.id ≠ x) :
    insertAfterId x n (A ++ B) = A ++ insertAfterId x n B := by
  induction A with
  | nil => rfl
  | cons m A ih =>
      have hm : ¬ m.id = x := hA m (by simp)
      simp [insertAfterId, hm, ih fun n hn => hA n (by simp [hn])]

/-! ## Helper lemmas: `takeWhile` bookkeeping for the scan -/

theorem takeWhile_congr_mem (p q : Node → Bool) :
    ∀ (A : List Node), (∀ m ∈ A, p m = q m) → A.takeWhile p = A.takeWhile q
  | [], _ => rfl
  | m :: A, h => by
      have hm : p m = q m := h m (by simp)
      have ih := takeWhile_congr_mem p q A fun n hn => h n (by simp [hn])
      by_cases hq : q m = true
      · simp [List.takeWhile_cons, hm, hq, ih]
      · simp [List.takeWhile_cons, hm, eq_false_of_ne_true hq]

theorem takeWhile_append_false (p : Node → Bool) (x : Node) (B : List Node)
    (hx : p x = false) :
    ∀ A : List Node, (A ++ x :: B).takeWhile p = A.takeWhile p
  | [] => by simp [List.takeWhile_cons, hx]
  | m :: A => by
      have ih := takeWhile_append_false p x B hx A
      by_cases hm : p m = true
      · simp [List.takeWhile_cons, hm, ih]
      · simp [List.takeWhile_cons, eq_false_of_ne_true hm]

theorem lastIdOr_nil (prev : Option Nat) : lastIdOr prev [] = prev := rfl

theorem lastIdOr_cons (prev : Option Nat) (m : Node) (Q : List Node) :
    lastIdOr prev (m :: Q) = lastIdOr (some m.id) Q := rfl

theorem lastIdOr_of_ne_nil :
    ∀ (Q : List Node), Q ≠ [] → ∀ prev : Option Nat,
      lastIdOr prev Q = Q.getLast?.map Node.id
  | [], h, _ => absurd rfl h
  | m :: Q, _, prev => by
      cases Q with
      | nil => simp [lastIdOr]
      | cons q Q =>
          rw [lastIdOr_cons, lastIdOr_of_ne_nil (q :: Q) (by simp) (some m.id),
            List.getLast?_cons_cons]

theorem lastIdOr_none_eq (Q : List Node) :
    lastIdOr none Q = Q.getLast?.map Node.id := by
  cases Q with
  | nil => rfl
  | cons m Q => exact lastIdOr_of_ne_nil (m :: Q) (by simp) none

/-! ## Characterization of the insertion-point scan -/

theorem findSpotGo_eq (v : Int) (b : Option Nat) :
    ∀ (l : List Node) (prev : Option Nat),
      (∀ x, b = some x → x ∈ l.map Node.id) →
      findSpotGo v b prev l =
        some (lastIdOr prev
          (l.takeWhile fun m => decide (some m.id ≠ b) && decide (m.data < v)))
  | [], prev, hb => by
      cases b with
      | none => simp [findSpotGo, lastIdOr]
      | some x => simpa using hb x rfl
  | m :: rest, prev, hb => by
      by_cases hmb : some m.id = b
      · simp [findSpotGo, hmb, lastIdOr]
      · have hb' : ∀ x, b = some x → x ∈ rest.map Node.id := by
          intro x hx
          have hmem := hb x hx
          rw [List.map_cons, List.mem_cons] at hmem
          rcases hmem with h | h
          · exfalso; apply hmb; rw [hx, h]
          · exact h
        by_cases hd : m.data < v
        · rw [show findSpotGo v b prev (m :: rest) =
              findSpotGo v b (some m.id) rest by simp [findSpotGo, hmb, hd]]
          rw [findSpotGo_eq v b rest (some m.id) hb']
          have hpm : (decide (some m.id ≠ b) && decide (m.data < v)) = true := by
            simp [hmb, hd]
          simp only [List.takeWhile_cons, hpm, if_true, lastIdOr_cons]
        · have hpm : (decide (some m.id ≠ b) && decide (m.data < v)) = false := by
            simp [hd]
          simp [findSpotGo, hmb, hd, List.takeWhile_cons, hpm, lastIdOr]

/-! ## Abstract effect of one relocation

One loop iteration of the driver moves `curr` (value `c`) from the front
of the unsorted suffix into the already-processed segment `P`: the scan
walks past the nodes of `P` whose value is strictly less than `c.data`
and the node is placed directly after them (before the first node whose
value is `≥ c.data`).  `insertSorted` is that abstract effect; the step
lemma below proves the translated driver body realizes it. -/

theorem insertSorted_eq_take_drop (c : Node) : ∀ P : List Node,
    insertSorted c P =
      P.takeWhile (fun m => decide (m.data < c.data)) ++
        c :: P.dropWhile (fun m => decide (m.data < c.data))
  | [] => rfl
  | m :: P => by
      by_cases h : m.data < c.data
      · simp [insertSorted, h, List.takeWhile_cons, List.dropWhile_cons,
          insertSorted_eq_take_drop c P]
      · simp [insertSorted, h, List.takeWhile_cons, List.dropWhile_cons]

theorem insertSorted_perm (c : Node) (P : List Node) :
    List.Perm (insertSorted c P) (c :: P) := by
  rw [insertSorted_eq_take_drop]
  have h : List.Perm
      (P.takeWhile (fun m => decide (m.data < c.data)) ++
        c :: P.dropWhile (fun m => decide (m.data < c.data)))
      (c :: (P.takeWhile (fun m => decide (m.data < c.data)) ++
        P.dropWhile (fun m => decide (m.data < c.data)))) := List.perm_middle
  rwa [List.takeWhile_append_dropWhile] at h

theorem insertSorted_pairwise (c : Node) : ∀ P : List Node,
    P.Pairwise (fun a b => a.data ≤ b.data) →
    (insertSorted c P).Pairwise (fun a b => a.data ≤ b.data)
  | [], _ => by simp [insertSorted]
  | m :: P, h => by
      rw [List.pairwise_cons] at h
      by_cases hm : m.data < c.data
      · have ih := insertSorted_pairwise c P h.2
        simp only [insertSorted, hm, if_true, List.pairwise_cons]
        refine ⟨fun x hx => ?_, ih⟩
        have hmem := (insertSorted_perm c P).mem_iff.1 hx
        rcases List.mem_cons.1 hmem with rfl | hxP
        · exact le_of_lt hm
        · exact h.1 x hxP
      · have hcm : c.data ≤ m.data := le_of_not_lt hm
        simp only [insertSorted, hm, if_false, List.pairwise_cons]
        refine ⟨fun x hx => ?_, h.1, h.2⟩
        rcases List.mem_cons.1 hx with rfl | hxP
        · exact hcm
        · exact le_trans hcm (h.1 x hxP)

theorem insertSorted_of_all_lt (c : Node) : ∀ P : List Node,
    (∀ m ∈ P, m.data < c.data) → insertSorted c P = P ++ [c]
  | [], _ => rfl
  | m :: P, h => by
      have hm : m.data < c.data := h m (by simp)
      simp [insertSorted, hm,
        insertSorted_of_all_lt c P fun n hn => h n (by simp [hn])]

/-! ## Small facts about well-formedness and `getLast?` -/

theorem mem_of_getLast?_eq {l : List Node} {a : Node}
    (h : l.getLast? = some a) : a ∈ l := by
  rcases List.mem_getLast?_eq_getLast (x := a) (by rw [h]; rfl) with ⟨hne, hx⟩
  rw [hx]
  exact List.getLast_mem hne

theorem wf_of_perm {l₁ l₂ : List Node} (h : List.Perm l₁ l₂) (hw : WF l₁) :
    WF l₂ :=
  ((h.map Node.id).nodup_iff).1 hw

theorem wf_append_left {A B : List Node} (hw : WF (A ++ B)) : WF A := by
  rw [WF, List.map_append, List.nodup_append] at hw
  exact hw.1

theorem wf_disjoint {A B : List Node} (hw : WF (A ++ B)) :
    ∀ a ∈ A, ∀ b ∈ B, a.id ≠ b.id := by
  rw [WF, List.map_append, List.nodup_append] at hw
  intro a ha b hb he
  exact hw.2.2 (List.mem_map_of_mem Node.id ha)
    (he ▸ List.mem_map_of_mem Node.id hb)

/-! ## The scan as called by the driver -/

theorem findSpot_driver (P : List Node) (c : Node) (S : List Node)
    (hP : ∀ m ∈ P, m.id ≠ c.id) :
    FindInsertionSpot (P ++ c :: S) c.data (some c.id) =
      some (lastIdOr none
        (P.takeWhile fun m => decide (m.data < c.data))) := by
  unfold FindInsertionSpot
  rw [findSpotGo_eq c.data (some c.id) (P ++ c :: S) none
    (fun x hx => by cases hx; simp)]
  congr 1
  rw [takeWhile_append_false _ c S (by simp) P]
  exact congrArg (lastIdOr none)
    (takeWhile_congr_mem _ _ P fun m hm => by simp [hP m hm])

/-! ## The step lemma

One iteration of the driver, started at a state `P ++ c :: S` whose
processed segment is `P` with last node `pl` (`prev` points at `pl`,
`curr` at `c`), succeeds and produces the state `insertSorted c P ++ S`,
with `prev` pointing at the last node of the new processed segment and
`curr` at the head of `S`. -/

theorem sortStep_eq (P : List Node) (pl c : Node) (S : List Node)
    (hlast : P.getLast? = some pl)
    (hwf : WF (P ++ c :: S)) :
    ∃ pl₂ : Node,
      (insertSorted c P).getLast? = some pl₂ ∧
      sortStep (P ++ c :: S) pl.id c.id =
        some (insertSorted c P ++ S, pl₂.id, S.head?.map Node.id) := by
  have hPc : ∀ m ∈ P, m.id ≠ c.id :=
    fun m hm => wf_disjoint hwf m hm c (by simp)
  have hget : getNode (P ++ c :: S) c.id = some c := by
    rw [getNode_append_right P _ c.id hPc]; exact getNode_cons_self c S
  have hsucc : succId c.id (P ++ c :: S) = S.head?.map Node.id := by
    rw [succId_append_right P _ c.id hPc]; exact succId_cons_self c S
  have hfind := findSpot_driver P c S hPc
  have hwfP : WF P := wf_append_left hwf
  set Q := P.takeWhile (fun m => decide (m.data < c.data)) with hQ
  set R := P.dropWhile (fun m => decide (m.data < c.data)) with hR
  have hQR : Q ++ R = P := by
    rw [hQ, hR]; exact List.takeWhile_append_dropWhile _ P
  have hisQR : insertSorted c P = Q ++ c :: R := by
    rw [insertSorted_eq_take_drop, ← hQ, ← hR]
  cases hRcase : R with
  | nil =>
      have hQP : Q = P := by rw [← hQR, hRcase, List.append_nil]
      have hspotv : lastIdOr none Q = some pl.id := by
        rw [hQP, lastIdOr_none_eq, hlast]; rfl
      refine ⟨c, ?_, ?_⟩
      · rw [hisQR, hRcase, hQP]
        exact List.getLast?_concat P
      · simp only [sortStep, hget, hsucc, hfind, hspotv, if_pos rfl]
        rw [hisQR, hRcase, hQP]
        simp
  | cons r R₁ =>
      have hPQR : P = Q ++ R := hQR.symm
      have hRne : R ≠ [] := by rw [hRcase]; simp
      have hlastR : R.getLast? = some pl := by
        rw [hPQR, List.getLast?_append_of_ne_nil Q hRne] at hlast
        exact hlast
      have hplR : pl ∈ R := mem_of_getLast?_eq hlastR
      have hwfQR : WF (Q ++ R) := by rw [hQR]; exact hwfP
      -- the new processed segment still ends at `pl`
      have hpl₂ : (insertSorted c P).getLast? = some pl := by
        rw [hisQR,
          List.getLast?_append_of_ne_nil Q (by simp),
          show c :: R = [c] ++ R from rfl,
          List.getLast?_append_of_ne_nil [c] hRne, hlastR]
      -- unlinking `curr`: `ListRemoveAfter` removes exactly `c`
      have hPdec : P.dropLast ++ [pl] = P :=
        List.dropLast_append_getLast? pl (by rw [hlast]; rfl)
      set P₀ := P.dropLast with hP₀def
      have hP₀ : ∀ m ∈ P₀, m.id ≠ pl.id := by
        intro m hm
        have hw : WF (P₀ ++ [pl]) := by rw [hPdec]; exact hwfP
        exact wf_disjoint hw m hm pl (by simp)
      have hsplit : P ++ c :: S = P₀ ++ pl :: c :: S := by
        rw [← hPdec, List.append_assoc]; rfl
      have hsplit₂ : P₀ ++ pl :: S = P ++ S := by
        rw [← hPdec, List.append_assoc]; rfl
      have hrem : removeAfterId pl.id (P ++ c :: S) = (some c, P ++ S) := by
        rw [hsplit, removeAfterId_append_right P₀ _ pl.id hP₀,
          show removeAfterId pl.id (pl :: c :: S) = (some c, pl :: S) by
            simp [removeAfterId]]
        rw [hsplit₂]
      cases hq : Q.getLast? with
      | none =>
          have hQnil : Q = [] := by
            cases hQc : Q with
            | nil => rfl
            | cons a Q₁ => rw [hQc] at hq; simp [List.getLast?_eq_none_iff] at hq
          have hspotv : lastIdOr none Q = none := by rw [hQnil]; rfl
          refine ⟨pl, hpl₂, ?_⟩
          simp only [sortStep, hget, hsucc, hfind, hspotv,
            if_neg (by simp : ¬ (none : Option Nat) = some pl.id)]
          simp only [ListRemoveAfter, hrem, ListPrepend]
          have hRP : R = P := by rw [← hQR, hQnil]; rfl
          rw [hisQR, hQnil]
          simp [hRP]
      | some q =>
          have hqQ : q ∈ Q := mem_of_getLast?_eq hq
          have hspotv : lastIdOr none Q = some q.id := by
            rw [lastIdOr_none_eq, hq]; rfl
          have hqpl : q.id ≠ pl.id := wf_disjoint hwfQR q hqQ pl hplR
          have hQdec : Q.dropLast ++ [q] = Q :=
            List.dropLast_append_getLast? q (by rw [hq]; rfl)
          set Q₀ := Q.dropLast with hQ₀def
          have hQ₀ : ∀ m ∈ Q₀, m.id ≠ q.id := by
            intro m hm
            have hw : WF (Q₀ ++ [q]) := by
              rw [hQdec]; exact wf_append_left hwfQR
            exact wf_disjoint hw m hm q (by simp)
          have hPS : P ++ S = Q₀ ++ q :: (R ++ S) := by
            rw [hPQR, ← hQdec]; simp [List.append_assoc]
          have hins : insertAfterId q.id c (P ++ S) = insertSorted c P ++ S := by
            rw [hPS, insertAfterId_append_right Q₀ _ q.id c hQ₀,
              show insertAfterId q.id c (q :: (R ++ S)) = q :: c :: (R ++ S) by
                simp [insertAfterId]]
            rw [hisQR, ← hQdec]
            simp [List.append_assoc]
          refine ⟨pl, hpl₂, ?_⟩
          simp only [sortStep, hget, hsucc, hfind, hspotv,
            if_neg (by simpa using hqpl :
              ¬ (some q.id : Option Nat) = some pl.id)]
          simp only [ListRemoveAfter, hrem, ListInsertAfter, hins]

/-! ## The abstract sort: folding `insertSorted` over the unsorted suffix -/

theorem buildSorted_nil (P : List Node) : buildSorted P [] = P := rfl

theorem buildSorted_cons (P : List Node) (c : Node) (S : List Node) :
    buildSorted P (c :: S) = buildSorted (insertSorted c P) S := rfl

theorem buildSorted_perm : ∀ (S P : List Node),
    List.Perm (buildSorted P S) (P ++ S)
  | [], P => by simp [buildSorted]
  | c :: S, P => by
      rw [buildSorted_cons]
      refine (buildSorted_perm S (insertSorted c P)).trans ?_
      refine (((insertSorted_perm c P).append_right S).trans ?_)
      exact (List.perm_middle : List.Perm (P ++ c :: S) (c :: (P ++ S))).symm

theorem buildSorted_pairwise : ∀ (S P : List Node),
    P.Pairwise (fun a b => a.data ≤ b.data) →
    (buildSorted P S).Pairwise (fun a b => a.data ≤ b.data)
  | [], _, h => h
  | c :: S, P, h =>
      buildSorted_pairwise S (insertSorted c P) (insertSorted_pairwise c P h)

theorem wf_insertSorted_step {P : List Node} {c : Node} {S : List Node}
    (hwf : WF (P ++ c :: S)) : WF (insertSorted c P ++ S) := by
  have h₁ : List.Perm (P ++ c :: S) (c :: (P ++ S)) := List.perm_middle
  have h₂ : List.Perm (insertSorted c P ++ S) ((c :: P) ++ S) :=
    (insertSorted_perm c P).append_right S
  exact wf_of_perm (h₁.trans h₂.symm) hwf

/-! ## The loop realizes the abstract fold -/

theorem sortLoop_eq : ∀ (S P : List Node) (pl : Node) (fuel : Nat),
    S.length ≤ fuel → P.getLast? = some pl → WF (P ++ S) →
    sortLoop fuel (P ++ S) pl.id (S.head?.map Node.id) =
      some (buildSorted P S)
  | [], P, pl, fuel, _, _, _ => by
      simp [sortLoop, buildSorted_nil]
  | c :: S₁, P, pl, 0, hfuel, _, _ => by simp at hfuel
  | c :: S₁, P, pl, fuel + 1, hfuel, hlast, hwf => by
      obtain ⟨pl₂, hpl₂, hstep⟩ := sortStep_eq P pl c S₁ hlast hwf
      have hwf₂ : WF (insertSorted c P ++ S₁) := wf_insertSorted_step hwf
      have hfuel₂ : S₁.length ≤ fuel := by
        simpa using Nat.succ_le_succ_iff.mp (by simpa using hfuel)
      simp only [List.head?_cons, Option.map_some, sortLoop, hstep]
      rw [sortLoop_eq S₁ (insertSorted c P) pl₂ fuel hfuel₂ hpl₂ hwf₂]
      rw [buildSorted_cons]

theorem loopIter_eq : ∀ (k : Nat) (S P : List Node) (pl : Node),
    P.getLast? = some pl → WF (P ++ S) →
    ∃ pl₂ : Node,
      (buildSorted P (S.take k)).getLast? = some pl₂ ∧
      loopIter k (P ++ S) pl.id (S.head?.map Node.id) =
        some (buildSorted P (S.take k) ++ S.drop k, pl₂.id,
          (S.drop k).head?.map Node.id)
  | 0, S, P, pl, hlast, _ =>
      ⟨pl, by rw [List.take_zero, buildSorted_nil]; exact hlast, rfl⟩
  | k + 1, [], P, pl, hlast, _ =>
      ⟨pl, by rw [List.take_nil, buildSorted_nil]; exact hlast,
        by simp [loopIter, buildSorted_nil]⟩
  | k + 1, c :: S₁, P, pl, hlast, hwf => by
      obtain ⟨pl₂, hpl₂, hstep⟩ := sortStep_eq P pl c S₁ hlast hwf
      have hwf₂ : WF (insertSorted c P ++ S₁) := wf_insertSorted_step hwf
      obtain ⟨pl₃, h₁, h₂⟩ :=
        loopIter_eq k S₁ (insertSorted c P) pl₂ hpl₂ hwf₂
      refine ⟨pl₃, ?_, ?_⟩
      · rw [List.take_succ_cons, buildSorted_cons]; exact h₁
      · simp only [List.head?_cons, Option.map_some, loopIter, hstep]
        rw [h₂, List.take_succ_cons, buildSorted_cons, List.drop_succ_cons]

/-! ## The whole sort -/

theorem sort_eq_model (l : List Node) (hwf : WF l) :
    ListInsertionSort l = some (sortModel l) := by
  match l with
  | [] => rfl
  | [n] => rfl
  | n₀ :: n₁ :: rest =>
      show sortLoop (n₀ :: n₁ :: rest).length (n₀ :: n₁ :: rest) n₀.id
          (some n₁.id) = _
      have h := sortLoop_eq (n₁ :: rest) [n₀] n₀
        (n₀ :: n₁ :: rest).length (by simp) rfl (by simpa using hwf)
      simpa using h

theorem sortModel_perm (l : List Node) : List.Perm (sortModel l) l := by
  match l with
  | [] => exact List.Perm.refl _
  | n₀ :: rest => exact (buildSorted_perm rest [n₀])

theorem sortModel_pairwise (l : List Node) :
    (sortModel l).Pairwise (fun a b => a.data ≤ b.data) := by
  match l with
  | [] => exact List.Pairwise.nil
  | n₀ :: rest => exact buildSorted_pairwise rest [n₀] (by simp)

/-- On a strictly increasing state every iteration takes the
`spot == prev` branch (`insertSorted` appends at the end), so the fold
leaves the list unchanged. -/
theorem buildSorted_strict : ∀ (S P : List Node),
    (P ++ S).Pairwise (fun a b => a.data < b.data) → buildSorted P S = P ++ S
  | [], P, _ => by simp [buildSorted_nil]
  | c :: S₁, P, h => by
      have hall : ∀ m ∈ P, m.data < c.data := by
        rw [List.pairwise_append] at h
        exact fun m hm => h.2.2 m hm c (by simp)
      have h₂ : ((P ++ [c]) ++ S₁).Pairwise (fun a b => a.data < b.data) := by
        rw [← List.append_cons]; exact h
      rw [buildSorted_cons, insertSorted_of_all_lt c P hall,
        buildSorted_strict S₁ (P ++ [c]) h₂, ← List.append_cons]

/-- Successful removal is extraction: the original list is a permutation
of the removed node consed on the remaining list. -/
theorem removeAfterId_perm : ∀ (l : List Node) (a : Nat) (n : Node)
    (l₂ : List Node), removeAfterId a l = (some n, l₂) →
    List.Perm l (n :: l₂)
  | [], a, n, l₂, h => by simp [removeAfterId] at h
  | m :: rest, a, n, l₂, h => by
      by_cases hm : m.id = a
      · cases rest with
        | nil => simp [removeAfterId, hm] at h
        | cons r rest₂ =>
            rw [show removeAfterId a (m :: r :: rest₂) = (some r, m :: rest₂)
              from by simp [removeAfterId, hm]] at h
            have h₁ : some r = some n := congrArg Prod.fst h
            have h₂ : m :: rest₂ = l₂ := congrArg Prod.snd h
            have hrn := Option.some.inj h₁
            rw [← h₂, ← hrn]
            exact List.Perm.swap r m rest₂
      · rw [show removeAfterId a (m :: rest) =
            ((removeAfterId a rest).1, m :: (removeAfterId a rest).2)
          from by simp [removeAfterId, hm]] at h
        have h₁ : (removeAfterId a rest).1 = some n := congrArg Prod.fst h
        have h₂ : m :: (removeAfterId a rest).2 = l₂ := congrArg Prod.snd h
        have ih := removeAfterId_perm rest a n (removeAfterId a rest).2
          (by rw [← h₁])
        rw [← h₂]
        exact (ih.cons m).trans (List.Perm.swap n m _)

/-- The scan on a list that does not contain the boundary, all of whose
values are strictly below the probe value, walks off the end and
dereferences null. -/
theorem findSpotGo_unreachable : ∀ (l : List Node) (v : Int) (x : Nat)
    (prev : Option Nat), x ∉ l.map Node.id → (∀ n ∈ l, n.data < v) →
    findSpotGo v (some x) prev l = none
  | [], _, _, _, _, _ => rfl
  | m :: rest, v, x, prev, hx, hlt => by
      have hmx : ¬ (some m.id = some x) := by
        intro hc
        apply hx
        rw [List.map_cons, List.mem_cons]
        exact Or.inl (Option.some.inj hc).symm
      rw [show findSpotGo v (some x) prev (m :: rest) =
          findSpotGo v (some x) (some m.id) rest from by
        simp [findSpotGo, hmx, hlt m (by simp)]]
      exact findSpotGo_unreachable rest v x (some m.id)
        (fun hmem => hx (by simp [hmem])) (fun n hn => hlt n (by simp [hn]))

/-- Reading the successor of the last node of the processed segment `P`
gives exactly the first unprocessed node `c`. -/
theorem succId_last_append (P : List Node) (pl c : Node) (S : List Node)
    (hlast : P.getLast? = some pl) (hwfP : WF P) :
    succId pl.id (P ++ c :: S) = some c.id := by
  have hPdec : P.dropLast ++ [pl] = P :=
    List.dropLast_append_getLast? pl (by rw [hlast]; rfl)
  set P₀ := P.dropLast with hP₀def
  have hP₀ : ∀ m ∈ P₀, m.id ≠ pl.id := by
    intro m hm
    have hw : WF (P₀ ++ [pl]) := by rw [hPdec]; exact hwfP
    exact wf_disjoint hw m hm pl (by simp)
  have hsplit : P ++ c :: S = P₀ ++ pl :: c :: S := by
    rw [← hPdec, List.append_assoc]; rfl
  rw [hsplit, succId_append_right P₀ _ pl.id hP₀]
  simp [succId]

/-- Removing after the last node of the processed segment `P` removes
exactly the first unprocessed node `c`. -/
theorem removeAfter_last_append (P : List Node) (pl c : Node)
    (S : List Node) (hlast : P.getLast? = some pl) (hwfP : WF P) :
    removeAfterId pl.id (P ++ c :: S) = (some c, P ++ S) := by
  have hPdec : P.dropLast ++ [pl] = P :=
    List.dropLast_append_getLast? pl (by rw [hlast]; rfl)
  set P₀ := P.dropLast with hP₀def
  have hP₀ : ∀ m ∈ P₀, m.id ≠ pl.id := by
    intro m hm
    have hw : WF (P₀ ++ [pl]) := by rw [hPdec]; exact hwfP
    exact wf_disjoint hw m hm pl (by simp)
  have hsplit : P ++ c :: S = P₀ ++ pl :: c :: S := by
    rw [← hPdec, List.append_assoc]; rfl
  have hsplit₂ : P₀ ++ pl :: S = P ++ S := by
    rw [← hPdec, List.append_assoc]; rfl
  rw [hsplit, removeAfterId_append_right P₀ _ pl.id hP₀,
    show removeAfterId pl.id (pl :: c :: S) = (some c, pl :: S) by
      simp [removeAfterId]]
  rw [hsplit₂]

/-! ## The claims -/

/-- C1 (the claim fails on the code; the code contradicts its own
documentation `Stable: Yes`): on the spec's own example input — values
`5, 3, 5` with identities `0, 1, 2` — `ListInsertionSort` returns the
nodes in order `3, 5(id 2), 5(id 0)`: the two equal-valued nodes come out
in reversed input order, so the equal-valued subsequence of the output is
not a subsequence of the input. -/
theorem claim1_stability_failure :
    ListInsertionSort [⟨0,5⟩,⟨1,3⟩,⟨2,5⟩] = some [⟨1,3⟩,⟨2,5⟩,⟨0,5⟩] ∧
    ¬ ((([⟨1,3⟩,⟨2,5⟩,⟨0,5⟩] : List Node).filter fun n => n.data == 5).Sublist
        (([⟨0,5⟩,⟨1,3⟩,⟨2,5⟩] : List Node).filter fun n => n.data == 5)) := by
  decide

/-- C2: for every well-formed input list, every adjacent pair `(a, b)` of
the list `ListInsertionSort` returns satisfies `a.data ≤ b.data`. -/
theorem claim2_sortedness (l r : List Node) (hwf : WF l)
    (h : ListInsertionSort l = some r) :
    List.Chain' (fun a b => a.data ≤ b.data) r := by
  rw [sort_eq_model l hwf] at h
  obtain rfl := Option.some.inj h
  exact (sortModel_pairwise l).chain'

theorem claim2_sortedness_witness :
    List.Chain' (fun a b : Node => a.data ≤ b.data)
      [⟨2,11⟩,⟨3,22⟩,⟨0,39⟩,⟨1,45⟩] :=
  claim2_sortedness [⟨0,39⟩,⟨1,45⟩,⟨2,11⟩,⟨3,22⟩] _ (by decide) (by decide)

/-- C3: for every well-formed input list (including empty and singleton),
the value sequence `ListInsertionSort` returns is a permutation of the
input value sequence, and in particular has the same length. -/
theorem claim3_permutation (l r : List Node) (hwf : WF l)
    (h : ListInsertionSort l = some r) :
    List.Perm (r.map Node.data) (l.map Node.data) ∧ r.length = l.length := by
  rw [sort_eq_model l hwf] at h
  obtain rfl := Option.some.inj h
  exact ⟨(sortModel_perm l).map Node.data, (sortModel_perm l).length_eq⟩

theorem claim3_permutation_witness :
    List.Perm (([⟨2,11⟩,⟨3,22⟩,⟨0,39⟩,⟨1,45⟩] : List Node).map Node.data)
        (([⟨0,39⟩,⟨1,45⟩,⟨2,11⟩,⟨3,22⟩] : List Node).map Node.data) ∧
      ([⟨2,11⟩,⟨3,22⟩,⟨0,39⟩,⟨1,45⟩] : List Node).length =
        ([⟨0,39⟩,⟨1,45⟩,⟨2,11⟩,⟨3,22⟩] : List Node).length :=
  claim3_permutation _ _ (by decide) (by decide)

/-- C4: for every list, value and boundary such that the boundary is null
or reachable from the head (so the scan returns at all, cf. C10),
`FindInsertionSpot` returns exactly what the spec says: the last node of
the maximal head-segment scanned while "not the boundary (by reference)
and value strictly less", or none when that segment is empty. -/
theorem claim4_findSpot_postcondition (l : List Node) (v : Int)
    (boundary : Option Nat)
    (hb : ∀ x, boundary = some x → x ∈ l.map Node.id) :
    FindInsertionSpot l v boundary =
      some (findInsertionSpotSpec l v boundary) := by
  unfold FindInsertionSpot findInsertionSpotSpec
  rw [findSpotGo_eq v boundary l none hb, lastIdOr_none_eq]

theorem claim4_findSpot_postcondition_witness :
    FindInsertionSpot [⟨0,11⟩,⟨1,39⟩,⟨2,45⟩] 22 none =
      some (findInsertionSpotSpec [⟨0,11⟩,⟨1,39⟩,⟨2,45⟩] 22 none) ∧
    findInsertionSpotSpec [⟨0,11⟩,⟨1,39⟩,⟨2,45⟩] 22 none = some 0 :=
  ⟨claim4_findSpot_postcondition [⟨0,11⟩,⟨1,39⟩,⟨2,45⟩] 22 none
      (fun x hx => nomatch hx), by decide⟩

/-- C5 (amended: the prefix is sorted and the suffix untouched, but the
prefix is **not** stable relative to input order — see the
counterexample): at every iteration boundary `k` of the driver on a
well-formed list, the state splits as `P ++ S` where `P` (the chain from
the head through `prev`) is sorted, `prev` is `P`'s last node, `curr` is
the head of `S` (or null), and `S` is an untouched suffix of the original
input. -/
theorem claim5_loop_invariant (n₀ n₁ : Node) (rest : List Node)
    (hwf : WF (n₀ :: n₁ :: rest)) (k : Nat)
    (l₂ : List Node) (p₂ : Nat) (c₂ : Option Nat)
    (hit : loopIter k (n₀ :: n₁ :: rest) n₀.id (some n₁.id) =
      some (l₂, p₂, c₂)) :
    ∃ P S, l₂ = P ++ S ∧
      List.Chain' (fun a b => a.data ≤ b.data) P ∧
      P.getLast?.map Node.id = some p₂ ∧
      c₂ = S.head?.map Node.id ∧
      S.IsSuffix (n₀ :: n₁ :: rest) := by
  obtain ⟨pl₂, h₁, h₂⟩ :=
    loopIter_eq k (n₁ :: rest) [n₀] n₀ rfl (by simpa using hwf)
  have h₄ := Option.some.inj (h₂.symm.trans hit)
  refine ⟨buildSorted [n₀] ((n₁ :: rest).take k), (n₁ :: rest).drop k,
    ?_, ?_, ?_, ?_, ?_⟩
  · exact (congrArg Prod.fst h₄).symm
  · exact List.Pairwise.chain' (buildSorted_pairwise _ [n₀] (by simp))
  · rw [h₁]
    exact congrArg (fun t => some t.2.1) h₄
  · exact (congrArg (fun t => t.2.2) h₄).symm
  · exact (List.drop_suffix k (n₁ :: rest)).trans
      (List.suffix_cons n₀ (n₁ :: rest))

theorem claim5_loop_invariant_witness :
    ∃ P S, ([⟨1,1⟩,⟨0,2⟩] : List Node) = P ++ S ∧
      List.Chain' (fun a b : Node => a.data ≤ b.data) P ∧
      P.getLast?.map Node.id = some 0 ∧
      (none : Option Nat) = S.head?.map Node.id ∧
      S.IsSuffix [⟨0,2⟩,⟨1,1⟩] :=
  claim5_loop_invariant ⟨0,2⟩ ⟨1,1⟩ [] (by decide) 1
    [⟨1,1⟩,⟨0,2⟩] 0 none (by decide)

/-- C5 counterexample: on input `5(id 0), 5(id 1)` the state after one
iteration is `5(id 1), 5(id 0)` with `prev` on node 0 (the chain from the
head through `prev` is the whole list), so the prefix holds the two
equal-valued nodes in reversed input order: the "stable relative to
original input order" part of the claimed invariant is false. -/
theorem claim5_counterexample :
    loopIter 1 [⟨0,5⟩,⟨1,5⟩] 0 (some 1) =
      some ([⟨1,5⟩,⟨0,5⟩], 0, none) ∧
    ¬ ((([⟨1,5⟩,⟨0,5⟩] : List Node).filter fun n => n.data == 5).Sublist
        (([⟨0,5⟩,⟨1,5⟩] : List Node).filter fun n => n.data == 5)) := by
  decide

/-- C6 (amended: unchanged only for *strictly* sorted input; with equal
adjacent values the list is relinked and equal nodes reversed — see the
counterexample): for every well-formed list whose adjacent values are
strictly increasing, `ListInsertionSort` returns the list unchanged:
same nodes, same order. -/
theorem claim6_sorted_strict_unchanged (l : List Node) (hwf : WF l)
    (hs : List.Chain' (fun a b => a.data < b.data) l) :
    ListInsertionSort l = some l := by
  rw [sort_eq_model l hwf]
  cases l with
  | nil => rfl
  | cons n₀ rest =>
      have hp : (n₀ :: rest).Pairwise (fun a b => a.data < b.data) :=
        List.chain'_iff_pairwise.mp hs
      show some (buildSorted [n₀] rest) = _
      rw [buildSorted_strict rest [n₀] hp]
      rfl

theorem claim6_sorted_strict_unchanged_witness :
    ListInsertionSort [⟨0,1⟩,⟨1,2⟩,⟨2,3⟩] = some [⟨0,1⟩,⟨1,2⟩,⟨2,3⟩] :=
  claim6_sorted_strict_unchanged _ (by decide)
    (List.Pairwise.chain' (by decide))

/-- C6 counterexample: `5(id 0), 5(id 1)` is sorted (adjacent values
non-decreasing), yet `ListInsertionSort` returns the structurally
different list `5(id 1), 5(id 0)`: the nodes were relinked and the
all-equal list did not keep its relative order. -/
theorem claim6_counterexample :
    List.Chain' (fun a b : Node => a.data ≤ b.data) [⟨0,5⟩,⟨1,5⟩] ∧
    ListInsertionSort [⟨0,5⟩,⟨1,5⟩] = some [⟨1,5⟩,⟨0,5⟩] ∧
    ([⟨1,5⟩,⟨0,5⟩] : List Node) ≠ [⟨0,5⟩,⟨1,5⟩] :=
  ⟨List.Pairwise.chain' (by decide), by decide, by decide⟩

/-- C7: `ListRemoveAfter` on a well-formed list: a null anchor removes
and returns the head (the list becomes its tail) and returns no node on
the empty list; an anchor that is the last node returns no node and
leaves the list unchanged; an anchor with a successor removes and
returns exactly that successor, splicing the list around it; and any
returned node is fully isolated — no node of the remaining list refers
to it (its identity no longer occurs). -/
theorem claim7_removeAfter_contract (l : List Node) (hwf : WF l) :
    (l = [] → ListRemoveAfter l none = (none, [])) ∧
    (∀ hd tl, l = hd :: tl → ListRemoveAfter l none = (some hd, tl)) ∧
    (∀ P A, l = P ++ [A] → ListRemoveAfter l (some A.id) = (none, l)) ∧
    (∀ P A n t, l = P ++ A :: n :: t →
      ListRemoveAfter l (some A.id) = (some n, P ++ A :: t)) ∧
    (∀ p n l₂, ListRemoveAfter l p = (some n, l₂) →
      n.id ∉ l₂.map Node.id) := by
  refine ⟨?_, ?_, ?_, ?_, ?_⟩
  · rintro rfl; rfl
  · rintro hd tl rfl; rfl
  · rintro P A rfl
    have hP : ∀ m ∈ P, m.id ≠ A.id :=
      fun m hm => wf_disjoint hwf m hm A (by simp)
    show removeAfterId A.id (P ++ [A]) = (none, P ++ [A])
    rw [removeAfterId_append_right P [A] A.id hP]
    simp [removeAfterId]
  · rintro P A n t rfl
    have hP : ∀ m ∈ P, m.id ≠ A.id :=
      fun m hm => wf_disjoint hwf m hm A (by simp)
    show removeAfterId A.id (P ++ A :: n :: t) = (some n, P ++ A :: t)
    rw [removeAfterId_append_right P _ A.id hP]
    simp [removeAfterId]
  · intro p n l₂ h
    cases p with
    | none =>
        cases l with
        | nil => cases congrArg Prod.fst h
        | cons hd tl =>
            have h' : ((some hd : Option Node), tl) = (some n, l₂) := h
            have h₁ : some hd = some n := congrArg Prod.fst h'
            have h₂ : tl = l₂ := congrArg Prod.snd h'
            obtain rfl := Option.some.inj h₁
            rw [WF, List.map_cons, List.nodup_cons] at hwf
            rw [← h₂]
            exact hwf.1
    | some a =>
        have hperm := removeAfterId_perm l a n l₂ h
        have hwf₂ : WF (n :: l₂) := wf_of_perm hperm hwf
        rw [WF, List.map_cons, List.nodup_cons] at hwf₂
        exact hwf₂.1

theorem claim7_removeAfter_contract_witness :
    ListRemoveAfter [⟨0,1⟩,⟨1,2⟩,⟨2,3⟩] (some 0) =
      (some ⟨1,2⟩, [⟨0,1⟩,⟨2,3⟩]) :=
  (claim7_removeAfter_contract [⟨0,1⟩,⟨1,2⟩,⟨2,3⟩] (by decide)).2.2.2.1
    [] ⟨0,1⟩ ⟨1,2⟩ [⟨2,3⟩] rfl

/-- C8: internal call discipline.  On every well-formed input the sort
runs to completion without any fault (every modelled fault — reading an
unreachable `curr`, a null dereference in the scan, the `ListInsertAfter`
assertion — yields `none`, and the sort returns `some`); moreover, at
every iteration boundary at which the loop is about to run again
(`curr` non-null), `prev` is a node reachable from the head, `curr` is
exactly `prev`'s immediate successor, `ListRemoveAfter(list, prev)`
removes and returns exactly the `curr` node, and the iteration body
itself completes without a fault — so no primitive's precondition is
ever violated. -/
theorem claim8_call_discipline (l : List Node) (hwf : WF l) :
    (∃ r, ListInsertionSort l = some r) ∧
    (∀ n₀ n₁ rest, l = n₀ :: n₁ :: rest →
      ∀ k l₂ p₂ c₂,
        loopIter k (n₀ :: n₁ :: rest) n₀.id (some n₁.id) =
          some (l₂, p₂, some c₂) →
        p₂ ∈ l₂.map Node.id ∧
        succId p₂ l₂ = some c₂ ∧
        (∃ curr, getNode l₂ c₂ = some curr ∧
          (ListRemoveAfter l₂ (some p₂)).1 = some curr) ∧
        (sortStep l₂ p₂ c₂).isSome = true) := by
  refine ⟨⟨sortModel l, sort_eq_model l hwf⟩, ?_⟩
  rintro n₀ n₁ rest rfl k l₂ p₂ c₂ hit
  obtain ⟨pl₂, h₁, h₂⟩ :=
    loopIter_eq k (n₁ :: rest) [n₀] n₀ rfl (by simpa using hwf)
  have h₄ := Option.some.inj (h₂.symm.trans hit)
  have hl₂ : buildSorted [n₀] ((n₁ :: rest).take k) ++ (n₁ :: rest).drop k
      = l₂ := congrArg Prod.fst h₄
  have hp₂ : pl₂.id = p₂ := congrArg (fun t => t.2.1) h₄
  have hc₂ : ((n₁ :: rest).drop k).head?.map Node.id = some c₂ :=
    congrArg (fun t => t.2.2) h₄
  cases hS : (n₁ :: rest).drop k with
  | nil => rw [hS] at hc₂; simp at hc₂
  | cons c S₁ =>
      rw [hS] at hl₂ hc₂
      have hcc : c.id = c₂ := Option.some.inj (by simpa using hc₂)
      set P := buildSorted [n₀] ((n₁ :: rest).take k) with hPdef
      have hshape : ([n₀] ++ (n₁ :: rest).take k) ++ c :: S₁ =
          n₀ :: n₁ :: rest := by
        rw [List.append_assoc, ← hS, List.take_append_drop]
        rfl
      have hperm : List.Perm (P ++ c :: S₁)
          (([n₀] ++ (n₁ :: rest).take k) ++ c :: S₁) :=
        (buildSorted_perm _ [n₀]).append_right _
      have hwfl₂ : WF (P ++ c :: S₁) :=
        wf_of_perm (hshape ▸ hperm).symm hwf
      have hwfP : WF P := wf_append_left hwfl₂
      have hPc : ∀ m ∈ P, m.id ≠ c.id :=
        fun m hm => wf_disjoint hwfl₂ m hm c (by simp)
      have hplP : pl₂ ∈ P := mem_of_getLast?_eq h₁
      refine ⟨?_, ?_, ?_, ?_⟩
      · rw [← hl₂, ← hp₂, List.map_append, List.mem_append]
        exact Or.inl (List.mem_map_of_mem Node.id hplP)
      · rw [← hl₂, ← hp₂, ← hcc]
        exact succId_last_append P pl₂ c S₁ h₁ hwfP
      · refine ⟨c, ?_, ?_⟩
        · rw [← hl₂, ← hcc, getNode_append_right P _ c.id hPc]
          exact getNode_cons_self c S₁
        · rw [← hl₂, ← hp₂]
          show (removeAfterId pl₂.id (P ++ c :: S₁)).1 = some c
          rw [removeAfter_last_append P pl₂ c S₁ h₁ hwfP]
      · obtain ⟨pl₃, _, hstep⟩ := sortStep_eq P pl₂ c S₁ h₁ hwfl₂
        rw [← hl₂, ← hp₂, ← hcc, hstep]
        rfl

theorem claim8_call_discipline_witness :
    (∃ r, ListInsertionSort [⟨0,39⟩,⟨1,45⟩,⟨2,11⟩,⟨3,22⟩] = some r) ∧
    ((1 : Nat) ∈ ([⟨2,11⟩,⟨0,39⟩,⟨1,45⟩,⟨3,22⟩] : List Node).map Node.id ∧
      succId 1 [⟨2,11⟩,⟨0,39⟩,⟨1,45⟩,⟨3,22⟩] = some 3 ∧
      (∃ curr, getNode [⟨2,11⟩,⟨0,39⟩,⟨1,45⟩,⟨3,22⟩] 3 = some curr ∧
        (ListRemoveAfter [⟨2,11⟩,⟨0,39⟩,⟨1,45⟩,⟨3,22⟩] (some 1)).1 =
          some curr) ∧
      (sortStep [⟨2,11⟩,⟨0,39⟩,⟨1,45⟩,⟨3,22⟩] 1 3).isSome = true) :=
  have h := claim8_call_discipline [⟨0,39⟩,⟨1,45⟩,⟨2,11⟩,⟨3,22⟩] (by decide)
  ⟨h.1, h.2 ⟨0,39⟩ ⟨1,45⟩ [⟨2,11⟩,⟨3,22⟩] rfl 2
    [⟨2,11⟩,⟨0,39⟩,⟨1,45⟩,⟨3,22⟩] 1 3 (by decide)⟩

/-- C9: the loop terminates after one iteration per originally-unsorted
node: any fuel of at least `length - 1` (the number of nodes after the
head) yields the same, successful result as the fuel the implementation
supplies. -/
theorem claim9_termination (l : List Node) (hwf : WF l) (fuel : Nat)
    (hfuel : l.length - 1 ≤ fuel) :
    sortWithFuel fuel l = ListInsertionSort l ∧
    ∃ r, sortWithFuel fuel l = some r := by
  cases l with
  | nil => exact ⟨rfl, ⟨[], rfl⟩⟩
  | cons n₀ rest =>
      cases rest with
      | nil => exact ⟨rfl, ⟨[n₀], rfl⟩⟩
      | cons n₁ rest =>
          have hwf₂ : WF ([n₀] ++ (n₁ :: rest)) := by simpa using hwf
          have hlen : (n₁ :: rest).length ≤ fuel := by
            simp only [List.length_cons] at hfuel ⊢
            omega
          have h₁ := sortLoop_eq (n₁ :: rest) [n₀] n₀ fuel hlen rfl hwf₂
          have h₂ := sortLoop_eq (n₁ :: rest) [n₀] n₀
            (n₀ :: n₁ :: rest).length (by simp) rfl hwf₂
          exact ⟨h₁.trans h₂.symm, ⟨buildSorted [n₀] (n₁ :: rest), h₁⟩⟩

theorem claim9_termination_witness :
    sortWithFuel 5 [⟨0,2⟩,⟨1,1⟩] = ListInsertionSort [⟨0,2⟩,⟨1,1⟩] ∧
    ∃ r, sortWithFuel 5 [⟨0,2⟩,⟨1,1⟩] = some r :=
  claim9_termination [⟨0,2⟩,⟨1,1⟩] (by decide) 5 (by decide)

/-- C10: the scan tests the boundary before dereferencing but never
tests for end-of-list, so (i) with a boundary that is null or reachable
it never dereferences null (it returns a value), while (ii) with a
non-null unreachable boundary and every value strictly below the probe
value it walks off the end and dereferences null (`none` in the
embedding). -/
theorem claim10_scan_safety :
    (∀ (l : List Node) (v : Int) (b : Option Nat),
      (∀ x, b = some x → x ∈ l.map Node.id) →
      (FindInsertionSpot l v b).isSome = true) ∧
    (∀ (l : List Node) (v : Int) (x : Nat),
      x ∉ l.map Node.id → (∀ n ∈ l, n.data < v) →
      FindInsertionSpot l v (some x) = none) := by
  constructor
  · intro l v b hb
    rw [FindInsertionSpot, findSpotGo_eq v b l none hb]
    rfl
  · intro l v x hx hlt
    exact findSpotGo_unreachable l v x none hx hlt

theorem claim10_scan_safety_witness :
    (FindInsertionSpot [⟨0,1⟩,⟨1,2⟩] 10 (some 1)).isSome = true ∧
    FindInsertionSpot [⟨0,1⟩,⟨1,2⟩] 10 (some 7) = none :=
  ⟨claim10_scan_safety.1 [⟨0,1⟩,⟨1,2⟩] 10 (some 1)
      (fun x hx => by rw [← Option.some.inj hx]; decide),
    claim10_scan_safety.2 [⟨0,1⟩,⟨1,2⟩] 10 7 (by decide) (by decide)⟩

end LLIsort
